import Mathlib

/-!
# Verification of the JSON-LD context-processing and expansion core

This file is a shallow embedding, in Lean 4, of the core of a JSON-LD
processor written in Rust (`src/mode.rs`, `src/context/mod.rs`,
`src/expansion/mod.rs`, `src/util/json/build.rs`), together with proofs of
the behavioural properties stated in the repository's specification.

Pure Rust functions are translated into Lean functions over explicit data
types; `Result` becomes `Except`; hash sets at the top level of the
expansion driver become `Finset`s (the Rust `HashSet` deduplicates by
structural equality).  Parts of the repository that the driver calls but
whose sources are not available (the recursive element expander, the
`Object` data type, the context-processing loop) are modelled from the
specification; each such definition is marked `Modelled from the spec:`
in its doc comment.
-/

namespace JsonLdSpec

/-! ## Processing mode (`src/mode.rs`) -/

/-- Processing mode, from `src/mode.rs`: either JSON-LD 1.0 or JSON-LD 1.1. -/
inductive ProcessingMode where
  | jsonLd1_0
  | jsonLd1_1
deriving DecidableEq, Repr

/-- Mathlib-derived enumeration of the two processing modes. -/
instance : Fintype ProcessingMode :=
  ⟨⟨{ProcessingMode.jsonLd1_0, ProcessingMode.jsonLd1_1}, by decide⟩, by
    intro x; cases x <;> decide⟩

/-- Embedding of `ProcessingMode::as_str` from `src/mode.rs`. -/
def ProcessingMode.as_str : ProcessingMode → String
  | .jsonLd1_0 => "json-ld-1.0"
  | .jsonLd1_1 => "json-ld-1.1"

/-- Embedding of `impl TryFrom<&str> for ProcessingMode` from `src/mode.rs`.
The error type of the Rust implementation is `()`. -/
def ProcessingMode.try_from (name : String) : Except Unit ProcessingMode :=
  if name = "json-ld-1.0" then .ok .jsonLd1_0
  else if name = "json-ld-1.1" then .ok .jsonLd1_1
  else .error ()

/-- Embedding of `impl Default for ProcessingMode` from `src/mode.rs`. -/
def ProcessingMode.default : ProcessingMode := .jsonLd1_1

/-! ## Context processing options (`src/context/mod.rs`, lines 27–74) -/

/-- Options of the context processing algorithm, from `src/context/mod.rs`. -/
structure ProcessingOptions where
  processing_mode : ProcessingMode
  override_protected : Bool
  propagate : Bool
deriving DecidableEq, Repr

/-- Embedding of `ProcessingOptions::with_override`:
copy the options and set `override_protected` to `true`. -/
def ProcessingOptions.with_override (o : ProcessingOptions) : ProcessingOptions :=
  { o with override_protected := true }

/-- Embedding of `ProcessingOptions::with_no_override`:
copy the options and set `override_protected` to `false`. -/
def ProcessingOptions.with_no_override (o : ProcessingOptions) : ProcessingOptions :=
  { o with override_protected := false }

/-- Embedding of `ProcessingOptions::without_propagation`:
copy the options and set `propagate` to `false`. -/
def ProcessingOptions.without_propagation (o : ProcessingOptions) : ProcessingOptions :=
  { o with propagate := false }

/-- Embedding of `impl Default for ProcessingOptions` from `src/context/mod.rs`. -/
def ProcessingOptions.default : ProcessingOptions :=
  ⟨ProcessingMode.default, false, true⟩

/-! ## Expansion options (`src/expansion/mod.rs`, lines 33–99) -/

/-- Key expansion policy, from `src/expansion/mod.rs`: exactly the four
variants `Relaxed`, `Standard`, `Strict`, `Strictest`. -/
inductive Policy where
  | relaxed
  | standard
  | strict
  | strictest
deriving DecidableEq, Repr

/-- Mathlib-derived enumeration of the four policies. -/
instance : Fintype Policy :=
  ⟨⟨{Policy.relaxed, Policy.standard, Policy.strict, Policy.strictest}, by decide⟩, by
    intro x; cases x <;> decide⟩

/-- Embedding of `Policy::is_strict`: true on `Strict` and `Strictest`. -/
def Policy.is_strict : Policy → Bool
  | .strict => true
  | .strictest => true
  | _ => false

/-- Embedding of `impl Default for Policy`. -/
def Policy.defaultPolicy : Policy := .standard

/-- Expansion options, from `src/expansion/mod.rs` lines 33–46: the record
has exactly the three fields `processing_mode`, `policy` and `ordered`. -/
structure Options where
  processing_mode : ProcessingMode
  policy : Policy
  ordered : Bool
deriving DecidableEq, Repr

/-- Product enumeration of the sixteen possible option records. -/
instance : Fintype Options :=
  Fintype.ofEquiv (ProcessingMode × Policy × Bool)
    { toFun := fun x => ⟨x.1, x.2.1, x.2.2⟩
      invFun := fun o => ⟨o.processing_mode, o.policy, o.ordered⟩
      left_inv := fun _ => rfl
      right_inv := fun _ => rfl }

/-- Embedding of `impl From<Options> for ProcessingOptions`
(`src/expansion/mod.rs` lines 101–108): keep the processing mode,
take the remaining fields from `ProcessingOptions::default`. -/
def Options.toProcessingOptions (o : Options) : ProcessingOptions :=
  { ProcessingOptions.default with processing_mode := o.processing_mode }

/-! ## Generic JSON values and `json_ld_eq` (`src/util/json/build.rs`) -/

/-- Shallow embedding of a generic JSON value (the `generic_json::Json`
abstraction consumed by the core): null, booleans, numbers, strings,
arrays, and objects.  Objects are association lists; the map types used by
the Rust code have unique keys, which is expressed by `wfb` below.
Numbers are compared by direct equality in the source, so they are
embedded as integers. -/
inductive Json where
  | null
  | bool (b : Bool)
  | num (n : Int)
  | str (s : String)
  | arr (items : List Json)
  | obj (entries : List (String × Json))

/-- Map lookup on an object, as performed by `b.get(key)` in the source:
the value of the first entry with the given key. -/
def objGet : List (String × Json) → String → Option Json
  | [], _ => none
  | (k, v) :: rest, key => if k = key then some v else objGet rest key

/-- An object entry found by lookup is structurally smaller than the
entry list it came from. -/
theorem sizeOf_objGet {ob : List (String × Json)} {k : String} {v : Json}
    (h : objGet ob k = some v) : sizeOf v < sizeOf ob := by
  induction ob with
  | nil => simp [objGet] at h
  | cons e rest ih =>
    obtain ⟨k2, v2⟩ := e
    simp only [objGet] at h
    split at h
    · cases h
      simp only [List.cons.sizeOf_spec, Prod.mk.sizeOf_spec]
      omega
    · have := ih h
      simp only [List.cons.sizeOf_spec]
      omega

mutual

/-- Embedding of `json_ld_eq` from `src/util/json/build.rs` (lines 141–203):
structural equality on JSON values where arrays of equal length are
compared by greedily matching each item of `a` against the first
not-yet-selected item of `b` that compares equal, objects of equal length
are compared entry-by-entry through key lookup with a special in-order
rule for the value of an `@list` entry, and scalars are compared by
direct equality; any other combination of shapes is unequal. -/
def jsonLdEq : Json → Json → Bool
  | .arr la, .arr lb =>
      if la.length = lb.length then
        greedyAll la lb (List.replicate lb.length false)
      else false
  | .obj oa, .obj ob =>
      if oa.length = ob.length then objEntriesEq oa ob else false
  | .null, .null => true
  | .bool x, .bool y => x == y
  | .num x, .num y => x == y
  | .str x, .str y => x == y
  | _, _ => false
termination_by a b => 2 * (sizeOf a + sizeOf b)

/-- Inner loop of the array case of `json_ld_eq`: scan the selection flags
(kept in lock-step with the items of `b`), skip the already selected
positions, and set the flag of the first position whose item compares
equal to `item`; `none` when no position matches. -/
def findMatch (item : Json) : List Json → List Bool → Option (List Bool)
  | [], _ => none
  | _, [] => none
  | y :: ys, s :: ss =>
      if !s && jsonLdEq item y then some (true :: ss)
      else
        match findMatch item ys ss with
        | none => none
        | some ss2 => some (s :: ss2)
termination_by lb _ => 2 * (sizeOf item + sizeOf lb)

/-- Outer loop of the array case of `json_ld_eq`: match every item of `a`
against a distinct, previously unselected item of `b`. -/
def greedyAll : List Json → List Json → List Bool → Bool
  | [], _, _ => true
  | x :: xs, lb, selected =>
      match findMatch x lb selected with
      | none => false
      | some selected2 => greedyAll xs lb selected2
termination_by la lb _ => 2 * (sizeOf la + sizeOf lb)

/-- Object case of `json_ld_eq`: every entry `(key, value_a)` of `a` must
have a counterpart `value_b = b.get(key)`, compared with `json_ld_eq`
except that when `key` is `"@list"` and both values are arrays of equal
length the items are compared element-by-element, in order. -/
def objEntriesEq : List (String × Json) → List (String × Json) → Bool
  | [], _ => true
  | (k, va) :: rest, ob =>
      match h : objGet ob k with
      | none => false
      | some vb =>
          (if k = "@list" then listEntryEq va vb else jsonLdEq va vb) &&
            objEntriesEq rest ob
termination_by oa ob => 2 * (sizeOf oa + sizeOf ob)
decreasing_by
  · have hvb := sizeOf_objGet h
    simp only [List.cons.sizeOf_spec, Prod.mk.sizeOf_spec]
    omega
  · have hvb := sizeOf_objGet h
    simp only [List.cons.sizeOf_spec, Prod.mk.sizeOf_spec]
    omega
  · simp only [List.cons.sizeOf_spec, Prod.mk.sizeOf_spec]
    omega

/-- Comparison of the value of an `@list` entry (`src/util/json/build.rs`
lines 167–186): two arrays of equal length are compared element-by-element,
in order; any other combination falls back to `json_ld_eq`. -/
def listEntryEq : Json → Json → Bool
  | .arr ia, .arr ib =>
      if ia.length = ib.length then pointwiseEq ia ib
      else jsonLdEq (.arr ia) (.arr ib)
  | va, vb => jsonLdEq va vb
termination_by va vb => 2 * (sizeOf va + sizeOf vb) + 1

/-- Element-by-element comparison used for the items of an `@list` entry. -/
def pointwiseEq : List Json → List Json → Bool
  | [], [] => true
  | x :: xs, y :: ys => jsonLdEq x y && pointwiseEq xs ys
  | _, _ => false
termination_by xs ys => 2 * (sizeOf xs + sizeOf ys)

end

/-! ## Well-formed JSON values

The `generic_json` object abstraction used by the source is map-like: an
object cannot carry two entries with the same key.  The association-list
embedding makes this a separate well-formedness predicate. -/

/-- Computable well-formedness: object entry keys are pairwise distinct,
recursively. -/
def wfb : Json → Bool
  | .null => true
  | .bool _ => true
  | .num _ => true
  | .str _ => true
  | .arr items => items.attach.all fun j => wfb j.1
  | .obj entries =>
      decide ((entries.map Prod.fst).Nodup) &&
        entries.attach.all fun e => wfb e.1.2
decreasing_by
  · have := List.sizeOf_lt_of_mem j.2
    simp only [Json.arr.sizeOf_spec]
    omega
  · obtain ⟨⟨k, v⟩, hm⟩ := e
    have h1 := List.sizeOf_lt_of_mem hm
    simp only [Prod.mk.sizeOf_spec] at h1
    simp only [Json.obj.sizeOf_spec]
    omega

/-- Unfolding of `wfb` on arrays. -/
theorem wfb_arr {items : List Json} :
    wfb (.arr items) = true ↔ ∀ j ∈ items, wfb j = true := by
  rw [wfb]
  simp [List.all_eq_true]

/-- Unfolding of `wfb` on objects. -/
theorem wfb_obj {entries : List (String × Json)} :
    wfb (.obj entries) = true ↔
      (entries.map Prod.fst).Nodup ∧ ∀ e ∈ entries, wfb e.2 = true := by
  rw [wfb]
  simp [List.all_eq_true]

/-- Nesting depth of a JSON value, used as the measure for the
simultaneous symmetry/transitivity induction below. -/
def depth : Json → Nat
  | .null => 0
  | .bool _ => 0
  | .num _ => 0
  | .str _ => 0
  | .arr items => (items.attach.map fun j => depth j.1).foldr max 0 + 1
  | .obj entries => (entries.attach.map fun e => depth e.1.2).foldr max 0 + 1
decreasing_by
  · have := List.sizeOf_lt_of_mem j.2
    simp only [Json.arr.sizeOf_spec]
    omega
  · obtain ⟨⟨k, v⟩, hm⟩ := e
    have h1 := List.sizeOf_lt_of_mem hm
    simp only [Prod.mk.sizeOf_spec] at h1
    simp only [Json.obj.sizeOf_spec]
    omega

/-- Members of a list bound its `foldr max 0`. -/
theorem le_foldr_max {l : List Nat} {a : Nat} (h : a ∈ l) :
    a ≤ l.foldr max 0 := by
  induction l with
  | nil => cases h
  | cons x xs ih =>
    rcases List.mem_cons.1 h with rfl | h2
    · exact le_max_left _ _
    · exact le_trans (ih h2) (le_max_right _ _)

/-- Array items are strictly shallower than the array. -/
theorem depth_lt_of_mem_arr {items : List Json} {j : Json} (h : j ∈ items) :
    depth j < depth (.arr items) := by
  rw [depth]
  have : depth j ∈ items.attach.map fun j => depth j.1 :=
    List.mem_map.2 ⟨⟨j, h⟩, List.mem_attach _ _, rfl⟩
  have := le_foldr_max this
  omega

/-- Object entry values are strictly shallower than the object. -/
theorem depth_lt_of_mem_obj {entries : List (String × Json)}
    {e : String × Json} (h : e ∈ entries) :
    depth e.2 < depth (.obj entries) := by
  rw [depth]
  have : depth e.2 ∈ entries.attach.map fun e => depth e.1.2 :=
    List.mem_map.2 ⟨⟨e, h⟩, List.mem_attach _ _, rfl⟩
  have := le_foldr_max this
  omega

/-! ## Lookup lemmas -/

/-- A successful lookup returns an entry of the list. -/
theorem objGet_mem {es : List (String × Json)} {k : String} {v : Json}
    (h : objGet es k = some v) : (k, v) ∈ es := by
  induction es with
  | nil => simp [objGet] at h
  | cons e rest ih =>
    obtain ⟨k2, v2⟩ := e
    simp only [objGet] at h
    split at h
    · cases h
      subst_vars
      exact List.mem_cons_self _ _
    · exact List.mem_cons_of_mem _ (ih h)

/-- With pairwise-distinct keys, lookup finds exactly the entry. -/
theorem objGet_of_mem_nodup {es : List (String × Json)} {k : String} {v : Json}
    (hn : (es.map Prod.fst).Nodup) (h : (k, v) ∈ es) :
    objGet es k = some v := by
  induction es with
  | nil => cases h
  | cons e rest ih =>
    obtain ⟨k2, v2⟩ := e
    simp only [List.map_cons, List.nodup_cons] at hn
    rcases List.mem_cons.1 h with h2 | h2
    · rw [Prod.mk.injEq] at h2
      obtain ⟨rfl, rfl⟩ := h2
      simp [objGet]
    · have hk : k2 ≠ k := by
        intro he
        exact hn.1 (he ▸ List.mem_map.2 ⟨(k, v), h2, rfl⟩)
      simp only [objGet, if_neg hk]
      exact ih hn.2 h2

/-- Lookup succeeds exactly on the keys of the object. -/
theorem objGet_isSome_iff {es : List (String × Json)} {k : String} :
    (∃ v, objGet es k = some v) ↔ k ∈ es.map Prod.fst := by
  induction es with
  | nil => simp [objGet]
  | cons e rest ih =>
    obtain ⟨k2, v2⟩ := e
    simp only [objGet, List.map_cons, List.mem_cons]
    split
    · subst_vars
      simp
    · rename_i hne
      rw [ih]
      constructor
      · exact fun hm => Or.inr hm
      · rintro (rfl | hm)
        · exact absurd rfl hne
        · exact hm

/-! ## Semantics of the greedy array matching

The selection-flag loop of `json_ld_eq` is related to an erase-based
formulation (`eraseF`/`greedyA`), and the latter is characterised by
`Multiset.Rel`: an array matching exists exactly when the two item
multisets are related pointwise. -/

/-- Remove the first element related to `x` by `R`, returning it and the
remaining list. -/
def eraseF (R : Json → Json → Bool) (x : Json) : List Json → Option (Json × List Json)
  | [] => none
  | y :: ys =>
      if R x y then some (y, ys)
      else
        match eraseF R x ys with
        | none => none
        | some (z, zs) => some (z, y :: zs)

/-- Erase-based formulation of the greedy matching loop. -/
def greedyA (R : Json → Json → Bool) : List Json → List Json → Bool
  | [], _ => true
  | x :: xs, av =>
      match eraseF R x av with
      | none => false
      | some (_, av2) => greedyA R xs av2

/-- Items of `lb` at the positions whose selection flag is still `false`. -/
def avail : List Json → List Bool → List Json
  | [], _ => []
  | _ :: _, [] => []
  | y :: ys, s :: ss => if s then avail ys ss else y :: avail ys ss

/-- No selection flag set: every item is still available. -/
theorem avail_replicate_false (lb : List Json) :
    avail lb (List.replicate lb.length false) = lb := by
  induction lb with
  | nil => rfl
  | cons y ys ih => simpa [avail, List.replicate] using ih

/-- A failed erase means no available item is related to `x`. -/
theorem eraseF_eq_none_iff {R : Json → Json → Bool} {x : Json} {av : List Json} :
    eraseF R x av = none ↔ ∀ y ∈ av, R x y = false := by
  induction av with
  | nil => simp [eraseF]
  | cons y ys ih =>
    simp only [eraseF]
    split
    · rename_i hR
      simp only [List.mem_cons]
      constructor
      · intro h; cases h
      · intro h
        have := h y (Or.inl rfl)
        rw [hR] at this
        cases this
    · rename_i hR
      constructor
      · intro h
        rcases hm : eraseF R x ys with _ | ⟨z, zs⟩
        · intro w hw
          rcases List.mem_cons.1 hw with rfl | hw2
          · exact Bool.not_eq_true _ ▸ (by simpa using hR)
          · exact ih.1 hm w hw2
        · rw [hm] at h; cases h
      · intro h
        have h2 : eraseF R x ys = none :=
          ih.2 fun w hw => h w (List.mem_cons_of_mem _ hw)
        rw [h2]

/-- A successful erase returns a related element and removes exactly one
occurrence of it. -/
theorem eraseF_eq_some {R : Json → Json → Bool} {x z : Json}
    {av av2 : List Json} (h : eraseF R x av = some (z, av2)) :
    R x z = true ∧ (av : Multiset Json) = z ::ₘ (av2 : Multiset Json) ∧
      av2.length + 1 = av.length := by
  induction av generalizing av2 with
  | nil => simp [eraseF] at h
  | cons y ys ih =>
    simp only [eraseF] at h
    split at h
    · rename_i hR
      cases h
      exact ⟨hR, rfl, rfl⟩
    · rcases hm : eraseF R x ys with _ | ⟨z2, zs⟩
      · rw [hm] at h; cases h
      · rw [hm] at h
        cases h
        obtain ⟨h1, h2, h3⟩ := ih hm
        refine ⟨h1, ?_, by simpa using h3⟩
        have : ((y :: zs : List Json) : Multiset Json) =
            y ::ₘ (zs : Multiset Json) := rfl
        rw [this, show ((y :: ys : List Json) : Multiset Json) =
            y ::ₘ (ys : Multiset Json) from rfl, h2]
        exact Multiset.cons_swap y z (zs : Multiset Json)

/-- Soundness of the greedy loop: a successful run of equal-length lists
produces a pointwise `Multiset.Rel` matching. -/
theorem greedyA_sound {R : Json → Json → Bool} :
    ∀ {la av : List Json}, greedyA R la av = true → la.length = av.length →
      Multiset.Rel (fun u v => R u v = true) (la : Multiset Json) (av : Multiset Json)
  | [], av, _, hlen => by
    have : av = [] := by
      cases av
      · rfl
      · cases hlen
    subst this
    exact Multiset.Rel.zero
  | x :: xs, av, h, hlen => by
    simp only [greedyA] at h
    rcases hm : eraseF R x av with _ | ⟨z, av2⟩
    · rw [hm] at h; cases h
    · rw [hm] at h
      obtain ⟨h1, h2, h3⟩ := eraseF_eq_some hm
      have hlen2 : xs.length = av2.length := by
        simp only [List.length_cons] at hlen
        omega
      have ih := greedyA_sound h hlen2
      rw [show ((x :: xs : List Json) : Multiset Json) =
          x ::ₘ (xs : Multiset Json) from rfl, h2]
      exact Multiset.Rel.cons h1 ih

/-- Completeness of the greedy loop: when `R` is symmetric and transitive
on the elements involved, any pointwise multiset matching is found. -/
theorem greedyA_complete {R : Json → Json → Bool} :
    ∀ {la av : List Json},
      (∀ u v, (u ∈ la ∨ u ∈ av) → (v ∈ la ∨ v ∈ av) →
        R u v = true → R v u = true) →
      (∀ u v w, (u ∈ la ∨ u ∈ av) → (v ∈ la ∨ v ∈ av) → (w ∈ la ∨ w ∈ av) →
        R u v = true → R v w = true → R u w = true) →
      Multiset.Rel (fun u v => R u v = true) (la : Multiset Json) (av : Multiset Json) →
      greedyA R la av = true
  | [], _, _, _, _ => rfl
  | x :: xs, av, hsym, htrans, hrel => by
    rw [show ((x :: xs : List Json) : Multiset Json) =
        x ::ₘ (xs : Multiset Json) from rfl] at hrel
    obtain ⟨b, av', hxb, hrel', hav⟩ := Multiset.rel_cons_left.1 hrel
    have hbav : b ∈ av := by
      have : b ∈ (av : Multiset Json) := hav ▸ Multiset.mem_cons_self _ _
      exact Multiset.mem_coe.1 this
    have herase : eraseF R x av ≠ none := by
      intro hnone
      have := eraseF_eq_none_iff.1 hnone b hbav
      rw [hxb] at this
      cases this
    rcases hm : eraseF R x av with _ | ⟨z, av2⟩
    · exact absurd hm herase
    · obtain ⟨hxz, hav2, _⟩ := eraseF_eq_some hm
      have hzav : z ∈ av := by
        have : z ∈ (av : Multiset Json) := hav2 ▸ Multiset.mem_cons_self _ _
        exact Multiset.mem_coe.1 this
      have hav2sub : ∀ u, u ∈ (av2 : Multiset Json) → u ∈ av := fun u hu => by
        have : u ∈ (av : Multiset Json) :=
          hav2 ▸ Multiset.mem_cons_of_mem hu
        exact Multiset.mem_coe.1 this
      have hrel2 : Multiset.Rel (fun u v => R u v = true)
          (xs : Multiset Json) (av2 : Multiset Json) := by
        have hzb : z ::ₘ (av2 : Multiset Json) = b ::ₘ av' := by
          rw [← hav2, hav]
        rcases Multiset.cons_eq_cons.1 hzb with ⟨rfl, rfl⟩ | ⟨_, cs, hcs1, hcs2⟩
        · exact hrel'
        · rw [hcs1]
          rw [hcs2] at hrel'
          obtain ⟨a, as, haz, hrelcs, hxs⟩ := Multiset.rel_cons_right.1 hrel'
          have haxs : a ∈ xs := by
            have : a ∈ (xs : Multiset Json) := hxs ▸ Multiset.mem_cons_self _ _
            exact Multiset.mem_coe.1 this
          have hab : R a b = true := by
            have hzx : R z x = true :=
              hsym x z (Or.inl (List.mem_cons_self _ _)) (Or.inr hzav) hxz
            have hax : R a x = true :=
              htrans a z x (Or.inl (List.mem_cons_of_mem _ haxs)) (Or.inr hzav)
                (Or.inl (List.mem_cons_self _ _)) haz hzx
            exact htrans a x b (Or.inl (List.mem_cons_of_mem _ haxs))
              (Or.inl (List.mem_cons_self _ _)) (Or.inr hbav) hax hxb
          rw [hxs]
          exact Multiset.Rel.cons hab hrelcs
      have ihsym : ∀ u v, (u ∈ xs ∨ u ∈ av2) → (v ∈ xs ∨ v ∈ av2) →
          R u v = true → R v u = true := by
        intro u v hu hv
        refine hsym u v ?_ ?_
        · rcases hu with hu | hu
          · exact Or.inl (List.mem_cons_of_mem _ hu)
          · exact Or.inr (hav2sub u (Multiset.mem_coe.2 hu))
        · rcases hv with hv | hv
          · exact Or.inl (List.mem_cons_of_mem _ hv)
          · exact Or.inr (hav2sub v (Multiset.mem_coe.2 hv))
      have ihtrans : ∀ u v w, (u ∈ xs ∨ u ∈ av2) → (v ∈ xs ∨ v ∈ av2) →
          (w ∈ xs ∨ w ∈ av2) → R u v = true → R v w = true → R u w = true := by
        intro u v w hu hv hw
        refine htrans u v w ?_ ?_ ?_
        · rcases hu with hu | hu
          · exact Or.inl (List.mem_cons_of_mem _ hu)
          · exact Or.inr (hav2sub u (Multiset.mem_coe.2 hu))
        · rcases hv with hv | hv
          · exact Or.inl (List.mem_cons_of_mem _ hv)
          · exact Or.inr (hav2sub v (Multiset.mem_coe.2 hv))
        · rcases hw with hw | hw
          · exact Or.inl (List.mem_cons_of_mem _ hw)
          · exact Or.inr (hav2sub w (Multiset.mem_coe.2 hw))
      have ih := greedyA_complete ihsym ihtrans hrel2
      simp only [greedyA, hm]
      exact ih

/-- A failed flag scan means no available item matches. -/
theorem findMatch_none_avail {x : Json} :
    ∀ {lb : List Json} {ss : List Bool}, findMatch x lb ss = none →
      eraseF jsonLdEq x (avail lb ss) = none
  | [], ss, _ => by cases ss <;> rfl
  | _ :: _, [], _ => rfl
  | y :: ys, s :: ss, h => by
    simp only [findMatch] at h
    split at h
    · cases h
    · rename_i hcond
      rcases hm : findMatch x ys ss with _ | ss2
      · have ih := findMatch_none_avail hm
        by_cases hs : s
        · simpa [avail, hs] using ih
        · have hxy : jsonLdEq x y = false := by
            simp [hs] at hcond
            exact hcond
          simp [avail, hs, eraseF, hxy, ih]
      · rw [hm] at h; cases h

/-- A successful flag scan erases exactly the first available match. -/
theorem findMatch_some_avail {x : Json} :
    ∀ {lb : List Json} {ss ss2 : List Bool}, findMatch x lb ss = some ss2 →
      ∃ z, eraseF jsonLdEq x (avail lb ss) = some (z, avail lb ss2)
  | [], _, _, h => by simp [findMatch] at h
  | _ :: _, [], _, h => by simp [findMatch] at h
  | y :: ys, s :: ss, ss2, h => by
    simp only [findMatch] at h
    split at h
    · rename_i hcond
      cases h
      have hs : s = false := by
        by_cases hs : s <;> simp [hs] at hcond ⊢
      have hxy : jsonLdEq x y = true := by
        rw [hs] at hcond
        simpa using hcond
      subst hs
      exact ⟨y, by simp [avail, eraseF, hxy]⟩
    · rename_i hcond
      rcases hm : findMatch x ys ss with _ | ss2'
      · rw [hm] at h; cases h
      · rw [hm] at h
        cases h
        obtain ⟨z, ih⟩ := findMatch_some_avail hm
        by_cases hs : s
        · subst hs
          exact ⟨z, by simpa [avail] using ih⟩
        · simp only [Bool.not_eq_true] at hs
          subst hs
          have hxy : jsonLdEq x y = false := by
            simpa using hcond
          exact ⟨z, by simp [avail, eraseF, hxy, ih]⟩

/-- The selection-flag loop of `json_ld_eq` agrees with the erase-based
greedy loop on the still-available items. -/
theorem greedyAll_eq_greedyA :
    ∀ {la lb : List Json} {ss : List Bool},
      greedyAll la lb ss = greedyA jsonLdEq la (avail lb ss)
  | [], _, _ => by simp [greedyAll, greedyA]
  | x :: xs, lb, ss => by
    simp only [greedyAll, greedyA]
    rcases hm : findMatch x lb ss with _ | ss2
    · rw [findMatch_none_avail hm]
    · obtain ⟨z, hz⟩ := findMatch_some_avail hm
      rw [hz]
      exact greedyAll_eq_greedyA

/-- Array comparison in `json_ld_eq`, stated through the erase-based loop. -/
theorem jsonLdEq_arr_eq {la lb : List Json} :
    jsonLdEq (.arr la) (.arr lb) = true ↔
      la.length = lb.length ∧ greedyA jsonLdEq la lb = true := by
  rw [jsonLdEq]
  split
  · rename_i hlen
    rw [greedyAll_eq_greedyA, avail_replicate_false]
    simp [hlen]
  · rename_i hlen
    simp [hlen]

/-- Composition of two membership-restricted `Multiset.Rel` matchings. -/
theorem rel_trans_mem {r₁ r₂ r₃ : Json → Json → Prop} {s t : Multiset Json}
    (h1 : Multiset.Rel r₁ s t) :
    ∀ {u : Multiset Json}, Multiset.Rel r₂ t u →
      (∀ a b c, a ∈ s → b ∈ t → c ∈ u → r₁ a b → r₂ b c → r₃ a c) →
      Multiset.Rel r₃ s u := by
  induction h1 with
  | zero =>
    intro u h2 _
    rw [Multiset.rel_zero_left] at h2
    subst h2
    exact Multiset.Rel.zero
  | @cons a b s₀ t₀ hab hrel ih =>
    intro u h2 hcomp
    obtain ⟨c, u₀, hbc, hrel2, rfl⟩ := Multiset.rel_cons_left.1 h2
    refine Multiset.Rel.cons ?_ (ih hrel2 ?_)
    · exact hcomp a b c (Multiset.mem_cons_self _ _) (Multiset.mem_cons_self _ _)
        (Multiset.mem_cons_self _ _) hab hbc
    · intro a2 b2 c2 ha hb hc h1' h2'
      exact hcomp a2 b2 c2 (Multiset.mem_cons_of_mem ha)
        (Multiset.mem_cons_of_mem hb) (Multiset.mem_cons_of_mem hc) h1' h2'

/-- Entry-wise unfolding of the object comparison loop. -/
theorem objEntriesEq_iff {oa ob : List (String × Json)} :
    objEntriesEq oa ob = true ↔
      ∀ e ∈ oa, ∃ vb, objGet ob e.1 = some vb ∧
        (if e.1 = "@list" then listEntryEq e.2 vb else jsonLdEq e.2 vb) = true := by
  induction oa with
  | nil => simp [objEntriesEq]
  | cons e rest ih =>
    obtain ⟨k, va⟩ := e
    rw [objEntriesEq]
    rcases hg : objGet ob k with _ | vb
    · simp only [List.mem_cons, hg]
      constructor
      · intro h; cases h
      · intro h
        obtain ⟨vb, hvb, _⟩ := h (k, va) (Or.inl rfl)
        simp only at hvb
        rw [hg] at hvb
        cases hvb
    · rw [Bool.and_eq_true, ih]
      constructor
      · rintro ⟨h1, h2⟩ e2 he2
        rcases List.mem_cons.1 he2 with rfl | he2
        · exact ⟨vb, hg, h1⟩
        · exact h2 e2 he2
      · intro h
        refine ⟨?_, fun e2 he2 => h e2 (List.mem_cons_of_mem _ he2)⟩
        obtain ⟨vb2, hvb2, hq⟩ := h (k, va) (List.mem_cons_self _ _)
        simp only at hvb2 hq
        rw [hg] at hvb2
        cases hvb2
        exact hq

/-- Object comparison in `json_ld_eq`, unfolded. -/
theorem jsonLdEq_obj_eq {oa ob : List (String × Json)} :
    jsonLdEq (.obj oa) (.obj ob) = true ↔
      oa.length = ob.length ∧
        ∀ e ∈ oa, ∃ vb, objGet ob e.1 = some vb ∧
          (if e.1 = "@list" then listEntryEq e.2 vb else jsonLdEq e.2 vb) = true := by
  rw [jsonLdEq]
  split
  · rename_i hlen
    rw [objEntriesEq_iff]
    simp [hlen]
  · rename_i hlen
    simp [hlen]

/-- The element-by-element list comparison is `List.Forall₂`. -/
theorem pointwiseEq_iff {la lb : List Json} :
    pointwiseEq la lb = true ↔
      List.Forall₂ (fun u v => jsonLdEq u v = true) la lb := by
  induction la generalizing lb with
  | nil =>
    cases lb <;> simp [pointwiseEq]
  | cons x xs ih =>
    cases lb with
    | nil => simp [pointwiseEq]
    | cons y ys =>
      rw [pointwiseEq, Bool.and_eq_true, ih]
      simp [List.forall₂_cons]

/-- Constructor tag of a JSON value, used to state that values of
different shapes never compare equal. -/
def shapeIdx : Json → Nat
  | .null => 0
  | .bool _ => 1
  | .num _ => 2
  | .str _ => 3
  | .arr _ => 4
  | .obj _ => 5

/-- `json_ld_eq` only relates values of the same shape. -/
theorem jsonLdEq_shape {a b : Json} (h : jsonLdEq a b = true) :
    shapeIdx a = shapeIdx b := by
  cases a <;> cases b <;> first
    | rfl
    | (rw [jsonLdEq.eq_def] at h; simp at h)

/-- Values of different shapes never compare equal. -/
theorem jsonLdEq_false_of_shape {a b : Json} (h : shapeIdx a ≠ shapeIdx b) :
    jsonLdEq a b = false := by
  cases hq : jsonLdEq a b
  · rfl
  · exact absurd (jsonLdEq_shape hq) h

/-- Symmetry of the element-by-element list comparison, given symmetry of
the elements involved. -/
theorem pointwiseEq_symm :
    ∀ {la lb : List Json},
      (∀ u v, u ∈ la → v ∈ lb → jsonLdEq u v = true → jsonLdEq v u = true) →
      pointwiseEq la lb = true → pointwiseEq lb la = true
  | [], [], _, _ => pointwiseEq_iff.2 List.Forall₂.nil
  | [], _ :: _, _, h => by rw [pointwiseEq_iff] at h; cases h
  | _ :: _, [], _, h => by rw [pointwiseEq_iff] at h; cases h
  | x :: xs, y :: ys, hsym, h => by
    rw [pointwiseEq, Bool.and_eq_true] at h ⊢
    refine ⟨hsym x y (List.mem_cons_self _ _) (List.mem_cons_self _ _) h.1, ?_⟩
    exact pointwiseEq_symm
      (fun u v hu hv => hsym u v (List.mem_cons_of_mem _ hu) (List.mem_cons_of_mem _ hv))
      h.2

/-- Transitivity of the element-by-element list comparison, given
transitivity of the elements involved. -/
theorem pointwiseEq_trans :
    ∀ {la lb lc : List Json},
      (∀ u v w, u ∈ la → v ∈ lb → w ∈ lc →
        jsonLdEq u v = true → jsonLdEq v w = true → jsonLdEq u w = true) →
      pointwiseEq la lb = true → pointwiseEq lb lc = true →
        pointwiseEq la lc = true
  | [], [], lc, _, _, h2 => h2
  | [], _ :: _, _, _, h1, _ => by rw [pointwiseEq_iff] at h1; cases h1
  | _ :: _, [], _, _, h1, _ => by rw [pointwiseEq_iff] at h1; cases h1
  | _ :: _, _ :: _, [], _, _, h2 => by rw [pointwiseEq_iff] at h2; cases h2
  | x :: xs, y :: ys, z :: zs, htrans, h1, h2 => by
    rw [pointwiseEq, Bool.and_eq_true] at h1 h2 ⊢
    refine ⟨htrans x y z (List.mem_cons_self _ _) (List.mem_cons_self _ _)
      (List.mem_cons_self _ _) h1.1 h2.1, ?_⟩
    exact pointwiseEq_trans
      (fun u v w hu hv hw => htrans u v w (List.mem_cons_of_mem _ hu)
        (List.mem_cons_of_mem _ hv) (List.mem_cons_of_mem _ hw))
      h1.2 h2.2

/-- Characterisation of the `@list` entry comparison: either both values
are arrays of equal length compared element-by-element, or the first value
is not an array and the comparison falls back to `json_ld_eq`. -/
theorem listEntryEq_true_iff {va vb : Json} :
    listEntryEq va vb = true ↔
      (∃ ia ib, va = .arr ia ∧ vb = .arr ib ∧ ia.length = ib.length ∧
        pointwiseEq ia ib = true) ∨
      ((∀ ia, va ≠ Json.arr ia) ∧ jsonLdEq va vb = true) := by
  cases va <;> cases vb <;>
    simp only [listEntryEq] <;>
    try simp
  case arr.arr ia ib =>
    by_cases hlen : ia.length = ib.length
    · simp [hlen]
    · have : jsonLdEq (.arr ia) (.arr ib) = true ↔ False := by
        rw [jsonLdEq_arr_eq]
        simp [hlen]
      simp [hlen, this]
  all_goals exact jsonLdEq_false_of_shape (by simp [shapeIdx])

/-- Keys of two equally long objects are permutations of each other when
the first object's keys are distinct and each has a counterpart in the
second object. -/
theorem keys_perm {oa ob : List (String × Json)}
    (hlen : oa.length = ob.length)
    (hnodA : (oa.map Prod.fst).Nodup)
    (hmatch : ∀ e ∈ oa, ∃ vb, objGet ob e.1 = some vb) :
    (oa.map Prod.fst).Perm (ob.map Prod.fst) := by
  have hsub : (oa.map Prod.fst) ⊆ (ob.map Prod.fst) := by
    intro k hk
    obtain ⟨e, he, rfl⟩ := List.mem_map.1 hk
    obtain ⟨vb, hvb⟩ := hmatch e he
    exact objGet_isSome_iff.1 ⟨vb, hvb⟩
  exact (List.subperm_of_subset hnodA hsub).perm_of_length_le (by simpa using hlen.ge)

/-- Symmetry and transitivity of `json_ld_eq` on well-formed values, by
strong induction on nesting depth. -/
theorem jsonLdEq_symTrans :
    ∀ n : Nat,
      (∀ a b : Json, depth a < n → depth b < n → wfb a = true → wfb b = true →
        jsonLdEq a b = true → jsonLdEq b a = true) ∧
      (∀ a b c : Json, depth a < n → depth b < n → depth c < n →
        wfb a = true → wfb b = true → wfb c = true →
        jsonLdEq a b = true → jsonLdEq b c = true → jsonLdEq a c = true) := by
  intro n
  induction n with
  | zero =>
    exact ⟨fun a b hda => absurd hda (Nat.not_lt_zero _),
      fun a b c hda => absurd hda (Nat.not_lt_zero _)⟩
  | succ n ih =>
    obtain ⟨ihsym, ihtrans⟩ := ih
    constructor
    · intro a b hda hdb hwa hwb h
      cases a <;> cases b <;>
        try (rw [jsonLdEq.eq_def] at h; simp at h; done)
      case null.null => exact h
      case bool.bool x y =>
        rw [jsonLdEq.eq_def] at h ⊢
        simp at h ⊢
        exact h.symm
      case num.num x y =>
        rw [jsonLdEq.eq_def] at h ⊢
        simp at h ⊢
        exact h.symm
      case str.str x y =>
        rw [jsonLdEq.eq_def] at h ⊢
        simp at h ⊢
        exact h.symm
      case arr.arr la lb =>
        rw [jsonLdEq_arr_eq] at h ⊢
        obtain ⟨hlen, hg⟩ := h
        have hrel := greedyA_sound hg hlen
        have hela : ∀ u ∈ la, depth u < n ∧ wfb u = true := fun u hu =>
          ⟨lt_of_lt_of_le (depth_lt_of_mem_arr hu) (Nat.lt_succ_iff.1 hda),
           (wfb_arr.1 hwa) u hu⟩
        have helb : ∀ u ∈ lb, depth u < n ∧ wfb u = true := fun u hu =>
          ⟨lt_of_lt_of_le (depth_lt_of_mem_arr hu) (Nat.lt_succ_iff.1 hdb),
           (wfb_arr.1 hwb) u hu⟩
        have hrel2 : Multiset.Rel (fun u v => jsonLdEq u v = true)
            (lb : Multiset Json) (la : Multiset Json) := by
          have hmono := hrel.mono fun u hu v hv huv =>
            ihsym u v (hela u (Multiset.mem_coe.1 hu)).1
              (helb v (Multiset.mem_coe.1 hv)).1
              (hela u (Multiset.mem_coe.1 hu)).2
              (helb v (Multiset.mem_coe.1 hv)).2 huv
          exact Multiset.rel_flip.1 hmono
        have hfact : ∀ u, (u ∈ lb ∨ u ∈ la) → depth u < n ∧ wfb u = true := by
          rintro u (hu | hu)
          · exact helb u hu
          · exact hela u hu
        exact ⟨hlen.symm,
          greedyA_complete
            (fun u v hu hv huv => ihsym u v (hfact u hu).1 (hfact v hv).1
              (hfact u hu).2 (hfact v hv).2 huv)
            (fun u v w hu hv hw h1 h2 => ihtrans u v w (hfact u hu).1
              (hfact v hv).1 (hfact w hw).1 (hfact u hu).2 (hfact v hv).2
              (hfact w hw).2 h1 h2)
            hrel2⟩
      case obj.obj oa ob =>
        rw [jsonLdEq_obj_eq] at h ⊢
        obtain ⟨hlen, hent⟩ := h
        obtain ⟨hnodA, hwfA⟩ := wfb_obj.1 hwa
        obtain ⟨hnodB, hwfB⟩ := wfb_obj.1 hwb
        have hperm := keys_perm hlen hnodA fun e he =>
          (hent e he).imp fun vb hvb => hvb.1
        refine ⟨hlen.symm, ?_⟩
        rintro ⟨k, vb⟩ he
        have hk : k ∈ oa.map Prod.fst :=
          hperm.mem_iff.2 (List.mem_map.2 ⟨(k, vb), he, rfl⟩)
        obtain ⟨va, hva⟩ := objGet_isSome_iff.2 hk
        have hmemA : (k, va) ∈ oa := objGet_mem hva
        obtain ⟨vb2, hvb2, hP⟩ := hent (k, va) hmemA
        simp only at hvb2 hP
        rw [objGet_of_mem_nodup hnodB he] at hvb2
        cases hvb2
        refine ⟨va, hva, ?_⟩
        have hfa : depth va < n :=
          lt_of_lt_of_le (depth_lt_of_mem_obj hmemA) (Nat.lt_succ_iff.1 hda)
        have hfb : depth vb < n :=
          lt_of_lt_of_le (depth_lt_of_mem_obj he) (Nat.lt_succ_iff.1 hdb)
        have hwva : wfb va = true := hwfA (k, va) hmemA
        have hwvb : wfb vb = true := hwfB (k, vb) he
        simp only
        by_cases hkl : k = "@list"
        · simp only [if_pos hkl] at hP ⊢
          rw [listEntryEq_true_iff] at hP ⊢
          rcases hP with ⟨ia, ib, rfl, rfl, hl, hpw⟩ | ⟨hna, hje⟩
          · left
            refine ⟨ib, ia, rfl, rfl, hl.symm, ?_⟩
            refine pointwiseEq_symm (fun u v hu hv huv => ?_) hpw
            exact ihsym u v
              (lt_trans (depth_lt_of_mem_arr hu) hfa)
              (lt_trans (depth_lt_of_mem_arr hv) hfb)
              ((wfb_arr.1 hwva) u hu) ((wfb_arr.1 hwvb) v hv) huv
          · right
            refine ⟨?_, ihsym va vb hfa hfb hwva hwvb hje⟩
            intro ib hbe
            subst hbe
            have hs := jsonLdEq_shape hje
            cases va <;> simp [shapeIdx] at hs
            exact absurd rfl (hna _)
        · simp only [if_neg hkl] at hP ⊢
          exact ihsym va vb hfa hfb hwva hwvb hP
    · intro a b c hda hdb hdc hwa hwb hwc h1 h2
      cases a <;> cases b <;> cases c
      all_goals try (rw [jsonLdEq.eq_def] at h1; simp at h1; done)
      all_goals try (rw [jsonLdEq.eq_def] at h2; simp at h2; done)
      case null.null.null => exact h1
      case bool.bool.bool x y z =>
        rw [jsonLdEq.eq_def] at h1 h2 ⊢
        simp at h1 h2 ⊢
        exact h1.trans h2
      case num.num.num x y z =>
        rw [jsonLdEq.eq_def] at h1 h2 ⊢
        simp at h1 h2 ⊢
        exact h1.trans h2
      case str.str.str x y z =>
        rw [jsonLdEq.eq_def] at h1 h2 ⊢
        simp at h1 h2 ⊢
        exact h1.trans h2
      case arr.arr.arr la lb lc =>
        rw [jsonLdEq_arr_eq] at h1 h2 ⊢
        obtain ⟨hlen1, hg1⟩ := h1
        obtain ⟨hlen2, hg2⟩ := h2
        have hrel1 := greedyA_sound hg1 hlen1
        have hrel2 := greedyA_sound hg2 hlen2
        have hela : ∀ u ∈ la, depth u < n ∧ wfb u = true := fun u hu =>
          ⟨lt_of_lt_of_le (depth_lt_of_mem_arr hu) (Nat.lt_succ_iff.1 hda),
           (wfb_arr.1 hwa) u hu⟩
        have helb : ∀ u ∈ lb, depth u < n ∧ wfb u = true := fun u hu =>
          ⟨lt_of_lt_of_le (depth_lt_of_mem_arr hu) (Nat.lt_succ_iff.1 hdb),
           (wfb_arr.1 hwb) u hu⟩
        have helc : ∀ u ∈ lc, depth u < n ∧ wfb u = true := fun u hu =>
          ⟨lt_of_lt_of_le (depth_lt_of_mem_arr hu) (Nat.lt_succ_iff.1 hdc),
           (wfb_arr.1 hwc) u hu⟩
        have hrel3 : Multiset.Rel (fun u v => jsonLdEq u v = true)
            (la : Multiset Json) (lc : Multiset Json) := by
          refine rel_trans_mem hrel1 hrel2 fun u v w hu hv hw huv hvw => ?_
          exact ihtrans u v w (hela u (Multiset.mem_coe.1 hu)).1
            (helb v (Multiset.mem_coe.1 hv)).1 (helc w (Multiset.mem_coe.1 hw)).1
            (hela u (Multiset.mem_coe.1 hu)).2 (helb v (Multiset.mem_coe.1 hv)).2
            (helc w (Multiset.mem_coe.1 hw)).2 huv hvw
        have hfact : ∀ u, (u ∈ la ∨ u ∈ lc) → depth u < n ∧ wfb u = true := by
          rintro u (hu | hu)
          · exact hela u hu
          · exact helc u hu
        exact ⟨hlen1.trans hlen2,
          greedyA_complete
            (fun u v hu hv huv => ihsym u v (hfact u hu).1 (hfact v hv).1
              (hfact u hu).2 (hfact v hv).2 huv)
            (fun u v w hu hv hw hx hy => ihtrans u v w (hfact u hu).1
              (hfact v hv).1 (hfact w hw).1 (hfact u hu).2 (hfact v hv).2
              (hfact w hw).2 hx hy)
            hrel3⟩
      case obj.obj.obj oa ob oc =>
        rw [jsonLdEq_obj_eq] at h1 h2 ⊢
        obtain ⟨hlen1, hent1⟩ := h1
        obtain ⟨hlen2, hent2⟩ := h2
        obtain ⟨hnodA, hwfA⟩ := wfb_obj.1 hwa
        obtain ⟨hnodB, hwfB⟩ := wfb_obj.1 hwb
        obtain ⟨hnodC, hwfC⟩ := wfb_obj.1 hwc
        refine ⟨hlen1.trans hlen2, ?_⟩
        rintro ⟨k, va⟩ he
        obtain ⟨vb, hvb, hP1⟩ := hent1 (k, va) he
        simp only at hvb hP1
        have hmemB : (k, vb) ∈ ob := objGet_mem hvb
        obtain ⟨vc, hvc, hP2⟩ := hent2 (k, vb) hmemB
        simp only at hvc hP2
        refine ⟨vc, hvc, ?_⟩
        have hfa : depth va < n :=
          lt_of_lt_of_le (depth_lt_of_mem_obj he) (Nat.lt_succ_iff.1 hda)
        have hfb : depth vb < n :=
          lt_of_lt_of_le (depth_lt_of_mem_obj hmemB) (Nat.lt_succ_iff.1 hdb)
        have hfc : depth vc < n :=
          lt_of_lt_of_le (depth_lt_of_mem_obj (objGet_mem hvc)) (Nat.lt_succ_iff.1 hdc)
        have hwva : wfb va = true := hwfA (k, va) he
        have hwvb : wfb vb = true := hwfB (k, vb) hmemB
        have hwvc : wfb vc = true := hwfC (k, vc) (objGet_mem hvc)
        simp only
        by_cases hkl : k = "@list"
        · simp only [if_pos hkl] at hP1 hP2 ⊢
          rw [listEntryEq_true_iff] at hP1 hP2 ⊢
          rcases hP1 with ⟨ia, ib, rfl, rfl, hl1, hp1⟩ | ⟨hna, hje1⟩
          · rcases hP2 with ⟨ib2, ic, hbe, rfl, hl2, hp2⟩ | ⟨hnb, hje2⟩
            · obtain rfl : ib2 = ib := by
                cases hbe
                rfl
              left
              refine ⟨ia, ic, rfl, rfl, hl1.trans hl2, ?_⟩
              refine pointwiseEq_trans (fun u v w hu hv hw hx hy => ?_) hp1 hp2
              exact ihtrans u v w
                (lt_trans (depth_lt_of_mem_arr hu) hfa)
                (lt_trans (depth_lt_of_mem_arr hv) hfb)
                (lt_trans (depth_lt_of_mem_arr hw) hfc)
                ((wfb_arr.1 hwva) u hu) ((wfb_arr.1 hwvb) v hv)
                ((wfb_arr.1 hwvc) w hw) hx hy
            · exact absurd rfl (hnb ib)
          · rcases hP2 with ⟨ib, ic, rfl, rfl, _, _⟩ | ⟨hnb, hje2⟩
            · have hs := jsonLdEq_shape hje1
              cases va <;> simp [shapeIdx] at hs
              exact absurd rfl (hna _)
            · right
              exact ⟨hna, ihtrans va vb vc hfa hfb hfc hwva hwvb hwvc hje1 hje2⟩
        · simp only [if_neg hkl] at hP1 hP2 ⊢
          exact ihtrans va vb vc hfa hfb hfc hwva hwvb hwvc hP1 hP2

/-- C3: `json_ld_eq` implements structural equality that ignores the
ordering of array elements — two equal-length arrays of well-formed values
compare equal exactly when every item of `a` can be matched to a distinct
item of `b` (`Multiset.Rel`) — while the array value of an object entry
whose key is `"@list"` is compared element-by-element, in order
(`List.Forall₂`); nulls, booleans, numbers and strings are compared by
direct equality, and values of different shapes or different lengths
compare unequal. -/
theorem json_ld_eq_characterization :
    (jsonLdEq .null .null = true) ∧
    (∀ x y : Bool, jsonLdEq (.bool x) (.bool y) = true ↔ x = y) ∧
    (∀ x y : Int, jsonLdEq (.num x) (.num y) = true ↔ x = y) ∧
    (∀ x y : String, jsonLdEq (.str x) (.str y) = true ↔ x = y) ∧
    (∀ a b : Json, shapeIdx a ≠ shapeIdx b → jsonLdEq a b = false) ∧
    (∀ la lb : List Json, la.length ≠ lb.length →
      jsonLdEq (.arr la) (.arr lb) = false) ∧
    (∀ oa ob : List (String × Json), oa.length ≠ ob.length →
      jsonLdEq (.obj oa) (.obj ob) = false) ∧
    (∀ la lb : List Json, (∀ j ∈ la, wfb j = true) → (∀ j ∈ lb, wfb j = true) →
      (jsonLdEq (.arr la) (.arr lb) = true ↔
        Multiset.Rel (fun u v => jsonLdEq u v = true)
          (la : Multiset Json) (lb : Multiset Json))) ∧
    (∀ la lb : List Json,
      jsonLdEq (.obj [("@list", .arr la)]) (.obj [("@list", .arr lb)]) = true ↔
        List.Forall₂ (fun u v => jsonLdEq u v = true) la lb) := by
  refine ⟨by simp [jsonLdEq], ?_, ?_, ?_, ?_, ?_, ?_, ?_, ?_⟩
  · intro x y
    rw [jsonLdEq.eq_def]
    simp
  · intro x y
    rw [jsonLdEq.eq_def]
    simp
  · intro x y
    rw [jsonLdEq.eq_def]
    simp
  · exact fun a b => jsonLdEq_false_of_shape
  · intro la lb hlen
    rw [jsonLdEq]
    simp [hlen]
  · intro oa ob hlen
    rw [jsonLdEq]
    simp [hlen]
  · intro la lb hwa hwb
    constructor
    · intro h
      rw [jsonLdEq_arr_eq] at h
      exact greedyA_sound h.2 h.1
    · intro hrel
      have hlen : la.length = lb.length := by
        have := Multiset.card_eq_card_of_rel hrel
        simpa using this
      rw [jsonLdEq_arr_eq]
      refine ⟨hlen, ?_⟩
      have hst := jsonLdEq_symTrans (depth (.arr la) + depth (.arr lb))
      have hfact : ∀ u, (u ∈ la ∨ u ∈ lb) →
          depth u < depth (.arr la) + depth (.arr lb) ∧ wfb u = true := by
        rintro u (hu | hu)
        · exact ⟨lt_of_lt_of_le (depth_lt_of_mem_arr hu) (Nat.le_add_right _ _),
            hwa u hu⟩
        · exact ⟨lt_of_lt_of_le (depth_lt_of_mem_arr hu) (Nat.le_add_left _ _),
            hwb u hu⟩
      exact greedyA_complete
        (fun u v hu hv huv => hst.1 u v (hfact u hu).1 (hfact v hv).1
          (hfact u hu).2 (hfact v hv).2 huv)
        (fun u v w hu hv hw hx hy => hst.2 u v w (hfact u hu).1 (hfact v hv).1
          (hfact w hw).1 (hfact u hu).2 (hfact v hv).2 (hfact w hw).2 hx hy)
        hrel
  · intro la lb
    rw [jsonLdEq_obj_eq]
    constructor
    · rintro ⟨-, hent⟩
      obtain ⟨vb, hvb, hP⟩ := hent ("@list", .arr la) (List.mem_cons_self _ _)
      simp only at hvb hP
      rw [show objGet [("@list", Json.arr lb)] "@list" = some (Json.arr lb)
        from by simp [objGet]] at hvb
      cases hvb
      rw [if_pos trivial] at hP
      rw [listEntryEq_true_iff] at hP
      rcases hP with ⟨ia, ib, hia, hib, hl, hpw⟩ | ⟨hna, _⟩
      · cases hia
        cases hib
        exact pointwiseEq_iff.1 hpw
      · exact absurd rfl (hna la)
    · intro hf
      refine ⟨rfl, ?_⟩
      intro e he
      rcases List.mem_cons.1 he with rfl | h0
      · refine ⟨.arr lb, by simp [objGet], ?_⟩
        have hc : ("@list", Json.arr la).1 = "@list" := rfl
        rw [if_pos hc, listEntryEq_true_iff]
        left
        exact ⟨la, lb, rfl, rfl, hf.length_eq, pointwiseEq_iff.2 hf⟩
      · cases h0

/-- Concrete instantiation of `json_ld_eq_characterization`: a two-element
array compares equal to its reversal. -/
theorem json_ld_eq_characterization_witness :
    jsonLdEq (.arr [.num 1, .str "x"]) (.arr [.str "x", .num 1]) = true := by
  have h := json_ld_eq_characterization
  refine (h.2.2.2.2.2.2.2.1 [.num 1, .str "x"] [.str "x", .num 1]
    ?_ ?_).2 ?_
  · intro j hj
    fin_cases hj <;> simp [wfb]
  · intro j hj
    fin_cases hj <;> simp [wfb]
  · have e1 : jsonLdEq (.num 1) (.num 1) = true := by simp [jsonLdEq]
    have e2 : jsonLdEq (.str "x") (.str "x") = true := by simp [jsonLdEq]
    have hms : (([Json.str "x", Json.num 1] : List Json) : Multiset Json) =
        (Json.num 1) ::ₘ (Json.str "x") ::ₘ 0 := by
      rw [show ((0 : Multiset Json) = (([] : List Json) : Multiset Json)) from rfl]
      rw [Multiset.cons_coe, Multiset.cons_coe]
      rw [Multiset.coe_eq_coe]
      exact List.Perm.swap _ _ _
    have hms2 : (([Json.num 1, Json.str "x"] : List Json) : Multiset Json) =
        (Json.num 1) ::ₘ (Json.str "x") ::ₘ 0 := by
      rw [show ((0 : Multiset Json) = (([] : List Json) : Multiset Json)) from rfl]
      rw [Multiset.cons_coe, Multiset.cons_coe]
    rw [hms, hms2]
    refine Multiset.Rel.cons ?_ (Multiset.Rel.cons ?_ ?_)
    · exact e1
    · exact e2
    · exact Multiset.Rel.zero

/-! ## Claims on the option records and the processing mode -/

/-- C9: `ProcessingMode::as_str` and `TryFrom<&str>` are mutually inverse:
each of the two modes round-trips through its name (`"json-ld-1.0"` and
`"json-ld-1.1"` respectively), and every other string is rejected with
`Err(())`. -/
theorem processing_mode_round_trip :
    (∀ m : ProcessingMode, ProcessingMode.try_from m.as_str = .ok m) ∧
    ProcessingMode.as_str .jsonLd1_0 = "json-ld-1.0" ∧
    ProcessingMode.as_str .jsonLd1_1 = "json-ld-1.1" ∧
    (∀ s : String, s ≠ "json-ld-1.0" → s ≠ "json-ld-1.1" →
      ProcessingMode.try_from s = .error ()) := by
  refine ⟨?_, rfl, rfl, ?_⟩
  · intro m
    cases m <;> rfl
  · intro s h1 h2
    rw [ProcessingMode.try_from, if_neg h1, if_neg h2]

/-- Concrete instantiation of `processing_mode_round_trip`: an unknown
mode name is rejected. -/
theorem processing_mode_round_trip_witness :
    ProcessingMode.try_from "json-ld-2.0" = .error () :=
  processing_mode_round_trip.2.2.2 "json-ld-2.0" (by decide) (by decide)

/-- C10: each `ProcessingOptions` combinator only touches its named field:
`with_override` and `with_no_override` set `override_protected` to `true`
(respectively `false`) leaving `processing_mode` and `propagate` unchanged,
and `without_propagation` sets `propagate` to `false` leaving
`processing_mode` and `override_protected` unchanged. -/
theorem processing_options_frame :
    ∀ o : ProcessingOptions,
      o.with_override.override_protected = true ∧
      o.with_override.processing_mode = o.processing_mode ∧
      o.with_override.propagate = o.propagate ∧
      o.with_no_override.override_protected = false ∧
      o.with_no_override.processing_mode = o.processing_mode ∧
      o.with_no_override.propagate = o.propagate ∧
      o.without_propagation.propagate = false ∧
      o.without_propagation.processing_mode = o.processing_mode ∧
      o.without_propagation.override_protected = o.override_protected :=
  fun _ => ⟨rfl, rfl, rfl, rfl, rfl, rfl, rfl, rfl, rfl⟩

/-- C8 counterexample: the expansion options record has exactly
2 · 4 · 2 = 16 possible values, so it consists of nothing beyond
`processing_mode`, `policy` and `ordered`; it carries no optional
`base_url` or `expand_context` field (an optional IRI or context field
would make the record infinite). -/
theorem options_no_extra_fields_counterexample :
    Fintype.card Options = 16 := by
  rfl

/-- C8 (amended): the public expansion options record provides exactly
`processing_mode` ranging over the two JSON-LD modes, `policy` ranging over
exactly the four variants, and a boolean `ordered`; a value of the record
is fully determined by these three fields.  `base_url` is a separate
parameter of `expand`, and no `expand_context` option exists. -/
theorem options_exactly_three_fields :
    (∀ o1 o2 : Options, o1.processing_mode = o2.processing_mode →
      o1.policy = o2.policy → o1.ordered = o2.ordered → o1 = o2) ∧
    (∀ m : ProcessingMode, m = .jsonLd1_0 ∨ m = .jsonLd1_1) ∧
    (∀ p : Policy, p = .relaxed ∨ p = .standard ∨ p = .strict ∨ p = .strictest) ∧
    Fintype.card ProcessingMode = 2 ∧ Fintype.card Policy = 4 := by
  refine ⟨?_, ?_, ?_, rfl, rfl⟩
  · intro o1 o2 h1 h2 h3
    cases o1
    cases o2
    cases h1
    cases h2
    cases h3
    rfl
  · intro m
    cases m <;> simp
  · intro p
    cases p <;> simp

/-- Concrete instantiation of `options_exactly_three_fields`: two option
records agreeing on the three fields are equal. -/
theorem options_exactly_three_fields_witness :
    (⟨.jsonLd1_1, .standard, true⟩ : Options) = ⟨.jsonLd1_1, .standard, true⟩ :=
  options_exactly_three_fields.1 _ _ rfl rfl rfl

/-! ## The top-level expansion driver (`src/expansion/mod.rs`, lines 197–298)

The expanded-object data type and `into_unnamed_graph` live in parts of
the repository that are not under `src/`; they are modelled from the
specification (§3 "Expanded Object", §4.6 "Top-Level Driver").  The
driver's own control flow (lines 284–297) is embedded directly.  The
`HashSet` of expanded objects is modelled as the list of its elements;
the claims below do not depend on duplicate collapsing. -/

/-- Modelled from the spec: an expanded object (§3), the `Object` type not
present under `src/`.  A `Value` is a literal with its metadata, a `Node`
has an optional id, a list of types, an optional graph member set, an
optional included set, reverse properties and properties, and a `List`
object holds an item list.  An indexed object pairs an expanded object
with an optional `@index` string, so `Obj × Option String` plays the role
of `Indexed<Object>`. -/
inductive Obj where
  | value (lit : String) (ty : Option String) (lang : Option String)
      (dir : Option String)
  | node (id : Option String) (types : List String)
      (graph : Option (List (Obj × Option String)))
      (included : Option (List (Obj × Option String)))
      (reverseProps : List (String × List (Obj × Option String)))
      (props : List (String × List (Obj × Option String)))
  | list (items : List (Obj × Option String))

/-- Test for `matches!(item.inner(), Object::Value(_))`. -/
def isValue : Obj → Bool
  | .value _ _ _ _ => true
  | _ => false

/-- Embedding of `filter_top_level_item` (`src/expansion/mod.rs` lines
197–200): keep an indexed object unless it is a bare Value object. -/
def filter_top_level_item (item : Obj × Option String) : Bool :=
  !(isValue item.1)

/-- Modelled from the spec: `Indexed::into_unnamed_graph`, not under
`src/`.  Per §4.6, the sole candidate for unwrapping is a default
(unnamed) graph: a node carrying only a graph member set — no id, no
types, no included set, no reverse properties, no properties — and no
`@index`; it is unwrapped into its member set, every other object is
returned unchanged as the error value. -/
def intoUnnamedGraph :
    Obj × Option String →
      Except (Obj × Option String) (List (Obj × Option String))
  | (.node none [] (some g) none [] [], none) => .ok g
  | o => .error o

/-- The error value of `intoUnnamedGraph` is the input itself. -/
theorem intoUnnamedGraph_error {o e : Obj × Option String}
    (h : intoUnnamedGraph o = .error e) : e = o := by
  rw [intoUnnamedGraph.eq_def] at h
  split at h
  · cases h
  · cases h
    rfl

/-- Graph member set carried by an expanded object, if any. -/
def graphOf : Obj → Option (List (Obj × Option String))
  | .node _ _ g _ _ _ => g
  | _ => none

/-- A successful unwrap returns the node's graph member set. -/
theorem intoUnnamedGraph_ok {o : Obj × Option String}
    {g : List (Obj × Option String)} (h : intoUnnamedGraph o = .ok g) :
    graphOf o.1 = some g := by
  rw [intoUnnamedGraph.eq_def] at h
  split at h
  · cases h
    rfl
  · cases h

/-- Embedding of the result post-processing of the top-level `expand`
driver (`src/expansion/mod.rs` lines 284–297): if the expanded result has
exactly one element, try to unwrap it as an unnamed graph and return the
member set on success, otherwise insert the sole element into the result
set only if it passes `filter_top_level_item`; with any other number of
elements, filter the result with `filter_top_level_item`. -/
def expandPost (expanded : List (Obj × Option String)) :
    List (Obj × Option String) :=
  match expanded with
  | [o] =>
      match intoUnnamedGraph o with
      | .ok graph => graph
      | .error obj => if filter_top_level_item obj then [obj] else []
  | _ => expanded.filter filter_top_level_item

/-- C1: after expansion of the root, the driver returns the member set of
the sole element when that element is a default (unnamed) graph, and in
every other case returns the expanded result with every bare Value object
removed (all Node and List objects are kept). -/
theorem expand_driver_characterization :
    ∀ expanded : List (Obj × Option String),
      (∀ o g, expanded = [o] → intoUnnamedGraph o = .ok g →
        expandPost expanded = g) ∧
      ((¬ ∃ o g, expanded = [o] ∧ intoUnnamedGraph o = .ok g) →
        expandPost expanded = expanded.filter filter_top_level_item) := by
  intro expanded
  constructor
  · rintro o g rfl hok
    rw [expandPost, hok]
  · intro hnot
    match expanded with
    | [] => rfl
    | [o] =>
      rw [expandPost]
      rcases hg : intoUnnamedGraph o with e | g
      · have he : e = o := intoUnnamedGraph_error hg
        subst he
        rw [List.filter]
        cases hf : filter_top_level_item e <;> simp [hf]
      · exact absurd ⟨o, g, rfl, hg⟩ hnot
    | a :: b :: rest => rfl

/-- Concrete instantiation of `expand_driver_characterization`: a sole
default graph is unwrapped into its member set. -/
theorem expand_driver_characterization_witness :
    expandPost [(.node none [] (some [(.node (some "n") [] none none [] [], none)])
        none [] [], none)] =
      [(.node (some "n") [] none none [] [], none)] :=
  (expand_driver_characterization _).1 _ _ rfl rfl

/-- Modelled from the spec: the invariant of `expand_element` (not under
`src/`) needed for the top-level claim — per §4.4, a scalar expanded with
active property null or `@graph` yields nothing, and per §4.5 step 5,
values that become dangling under active property null or `@graph` are
dropped (the §4.6 filter), so the member set of any graph carried by an
expanded object contains no bare Value object. -/
def graphMembersValueFree (expanded : List (Obj × Option String)) : Prop :=
  ∀ o ∈ expanded, ∀ g, graphOf o.1 = some g → ∀ m ∈ g, isValue m.1 = false

/-- C2: the set returned by the top-level `expand` driver never contains a
Value object, including when a sole default graph is unwrapped into its
member set — given the `expand_element` invariant that graph member sets
are already value-free. -/
theorem expand_no_top_level_value :
    ∀ expanded : List (Obj × Option String),
      graphMembersValueFree expanded →
      ∀ o ∈ expandPost expanded, isValue o.1 = false := by
  intro expanded hfree o ho
  match expanded with
  | [] => cases ho
  | [a] =>
    rw [expandPost] at ho
    rcases hg : intoUnnamedGraph a with e | g
    · rw [hg] at ho
      replace ho : o ∈ (if filter_top_level_item e = true then [e] else []) := ho
      by_cases hf : filter_top_level_item e = true
      · rw [if_pos hf] at ho
        rcases List.mem_singleton.1 ho with rfl
        rw [filter_top_level_item] at hf
        simpa using hf
      · rw [if_neg hf] at ho
        cases ho
    · rw [hg] at ho
      exact hfree a (List.mem_singleton.2 rfl) g (intoUnnamedGraph_ok hg) o ho
  | a :: b :: rest =>
    replace ho : o ∈ (a :: b :: rest).filter filter_top_level_item := ho
    have h2 := List.of_mem_filter ho
    rw [filter_top_level_item] at h2
    simpa using h2

/-- Concrete instantiation of `expand_no_top_level_value`: the member
unwrapped from a sole default graph is not a Value object. -/
theorem expand_no_top_level_value_witness :
    isValue (Obj.node (some "n") [] none none [] []) = false := by
  refine expand_no_top_level_value
    [(.node none [] (some [(.node (some "n") [] none none [] [], none)])
        none [] [], none)]
    ?_ (.node (some "n") [] none none [] [], none) ?_
  · intro o ho g hg m hm
    rcases List.mem_singleton.1 ho with rfl
    rw [show graphOf (Obj.node none []
        (some [(.node (some "n") [] none none [] [], none)]) none [] []) =
      some [(.node (some "n") [] none none [] [], none)] from rfl] at hg
    cases hg
    rcases List.mem_singleton.1 hm with rfl
    rfl
  · rw [show expandPost [(.node none []
        (some [(.node (some "n") [] none none [] [], none)]) none [] [], none)] =
      [(.node (some "n") [] none none [] [], none)] from rfl]
    exact List.mem_singleton.2 rfl

/-! ## Entry ordering and ordered enumeration
(`src/expansion/mod.rs` lines 120–195) -/

/-- JSON object entry (`Entry` in `src/expansion/mod.rs`): a key reference
paired with the entry value. -/
structure Entry where
  key : String
  value : Json

/-- Embedding of `impl Ord for Entry` (`src/expansion/mod.rs` lines
150–157): entries compare by their keys only, with the string comparison
of the key type (code-point lexicographic order). -/
def Entry.cmp (e1 e2 : Entry) : Ordering := compare e1.key e2.key

/-- Modelled from the spec: the entry enumeration of the object-entry
dispatcher (§4.5 step 4), whose source is not under `src/`: "If
`options.ordered`, sort keys by code-point order; else in insertion
order."  Sorting uses the `Ord` instance on entries. -/
def enumerateEntries (ordered : Bool) (es : List Entry) : List Entry :=
  if ordered then es.mergeSort fun a b => (Entry.cmp a b).isLE else es

/-- The boolean entry comparison agrees with the key order. -/
theorem entry_cmp_isLE_iff {a b : Entry} :
    (Entry.cmp a b).isLE = true ↔ a.key ≤ b.key := by
  rw [Entry.cmp, ← compare_le_iff_le]
  cases compare a.key b.key <;> simp [Ordering.isLE]

/-- The boolean entry comparison is transitive. -/
theorem entry_le_trans (a b c : Entry)
    (h1 : (Entry.cmp a b).isLE = true) (h2 : (Entry.cmp b c).isLE = true) :
    (Entry.cmp a c).isLE = true :=
  entry_cmp_isLE_iff.2 (le_trans (entry_cmp_isLE_iff.1 h1) (entry_cmp_isLE_iff.1 h2))

/-- The boolean entry comparison is total. -/
theorem entry_le_total (a b : Entry) :
    ((Entry.cmp a b).isLE || (Entry.cmp b a).isLE) = true := by
  rcases le_total a.key b.key with h | h
  · rw [entry_cmp_isLE_iff.2 h]
    rfl
  · rw [entry_cmp_isLE_iff.2 h]
    simp

/-- C6: with `ordered = true` the entry enumeration is deterministic — the
`Ord` instance on entries compares keys only (the entry values are
irrelevant to it), the ordered enumeration is a permutation of the entries
with keys in code-point order, two insertion orders of the same entries
with pairwise-distinct keys enumerate identically (byte-identical
ordering across runs), and with `ordered = false` the entries are kept in
insertion order. -/
theorem ordered_enumeration_deterministic :
    (∀ (k1 k2 : String) (v1 v2 w1 w2 : Json),
      Entry.cmp ⟨k1, v1⟩ ⟨k2, v2⟩ = Entry.cmp ⟨k1, w1⟩ ⟨k2, w2⟩) ∧
    (∀ e1 e2 : Entry, Entry.cmp e1 e2 = compare e1.key e2.key) ∧
    (∀ es : List Entry, (enumerateEntries true es).Perm es ∧
      List.Pairwise (fun a b : Entry => a.key ≤ b.key) (enumerateEntries true es)) ∧
    (∀ es es2 : List Entry, es.Perm es2 → (es.map Entry.key).Nodup →
      enumerateEntries true es = enumerateEntries true es2) ∧
    (∀ es : List Entry, enumerateEntries false es = es) := by
  have hsorted : ∀ es : List Entry,
      List.Pairwise (fun a b : Entry => a.key ≤ b.key) (enumerateEntries true es) := by
    intro es
    rw [enumerateEntries, if_pos rfl]
    have hp := List.sorted_mergeSort entry_le_trans entry_le_total es
    exact hp.imp fun h => entry_cmp_isLE_iff.1 h
  have hperm : ∀ es : List Entry, (enumerateEntries true es).Perm es := by
    intro es
    rw [enumerateEntries, if_pos rfl]
    exact List.mergeSort_perm es _
  refine ⟨fun k1 k2 v1 v2 w1 w2 => rfl, fun e1 e2 => rfl,
    fun es => ⟨hperm es, hsorted es⟩, ?_, fun es => rfl⟩
  intro es es2 hp hnod
  haveI : IsAntisymm Entry fun a b => a.key < b.key :=
    ⟨fun a b h1 h2 => absurd h2 (not_lt_of_lt h1)⟩
  have hkeys : ∀ l : List Entry, l.Perm es →
      List.Pairwise (fun a b : Entry => a.key ≤ b.key) l →
      List.Pairwise (fun a b : Entry => a.key < b.key) l := by
    intro l hlp hle
    have hnodl : (l.map Entry.key).Nodup := (hlp.map Entry.key).nodup_iff.2 hnod
    have hne : List.Pairwise (fun a b : Entry => a.key ≠ b.key) l :=
      (List.pairwise_map.1 hnodl)
    exact (hle.and hne).imp fun h => lt_of_le_of_ne h.1 h.2
  have h1 := hkeys (enumerateEntries true es) (hperm es) (hsorted es)
  have h2 := hkeys (enumerateEntries true es2) ((hperm es2).trans hp.symm) (hsorted es2)
  exact List.eq_of_perm_of_sorted ((hperm es).trans (hp.trans (hperm es2).symm)) h1 h2

/-- Concrete instantiation of `ordered_enumeration_deterministic`: two
insertion orders of the same two entries enumerate identically. -/
theorem ordered_enumeration_deterministic_witness :
    enumerateEntries true [⟨"b", .null⟩, ⟨"a", .null⟩] =
      enumerateEntries true [⟨"a", .null⟩, ⟨"b", .null⟩] :=
  ordered_enumeration_deterministic.2.2.2.1
    [⟨"b", .null⟩, ⟨"a", .null⟩] [⟨"a", .null⟩, ⟨"b", .null⟩]
    (List.Perm.swap _ _ _) (by simp)

/-! ## Failure semantics of context processing (`src/context/mod.rs`) -/

/-- Source-located value (`Loc<T, M>` of the crate): a value paired with
source-location metadata provided by the JSON abstraction. -/
structure Loc (α : Type) (M : Type) where
  value : α
  metadata : M

/-- Embedding of `Processed` (`src/context/mod.rs` lines 312–322): a
processed context together with its original unprocessed local context
and the warnings collected during processing.  The `local` field of the
Rust struct is called `localContext` because `local` is reserved in
Lean. -/
structure Processed (L C W M : Type) where
  localContext : L
  processed : C
  warnings : List (Loc W M)

/-- Embedding of `ProcessingResult` (`src/context/mod.rs` lines 164–166):
either a complete `Processed` value or a single source-located error —
there is no partial-result alternative. -/
def ProcessingResult (L C W E M : Type) : Type :=
  Except (Loc E M) (Processed L C W M)

/-- Outcome of one step of the context-processing or expansion algorithm,
as classified by the specification. -/
inductive StepOutcome (W E : Type) where
  | ok
  | warn (w : W)
  | err (e : E)
deriving DecidableEq, Repr

/-- Test for an error step. -/
def StepOutcome.isErr {W E : Type} : StepOutcome W E → Bool
  | .err _ => true
  | _ => false

/-- Warnings recorded by a sequence of steps. -/
def warningsOf {W E : Type} (steps : List (StepOutcome W E)) : List W :=
  steps.filterMap fun s =>
    match s with
    | .warn w => some w
    | _ => none

/-- Modelled from the spec: §4.7 — "Each algorithm step either succeeds,
records a warning (continue), or raises a named error (abort the entire
operation). There is no partial result."  The processing loop itself
(`processing.rs`) is not under `src/`; this folds a sequence of step
outcomes, appending warnings to the vector threaded through recursion and
aborting at the first error. -/
def runSteps {W E : Type} :
    List (StepOutcome W E) → List W → Except E (List W)
  | [], ws => .ok ws
  | .ok :: rest, ws => runSteps rest ws
  | .warn w :: rest, ws => runSteps rest (ws ++ [w])
  | .err e :: _, _ => .error e

/-- C7: context processing and expansion either succeed completely or
abort with a single source-located error: the result type has exactly the
`Ok(Processed)` and `Err(Loc<Error, M>)` alternatives, the warning vector
rides along the successful result, an error-free run succeeds and returns
every recorded warning, and a run aborts with exactly its first error —
a warning never causes an error return. -/
theorem processing_failure_semantics :
    (∀ (L C W E M : Type) (r : ProcessingResult L C W E M),
      (∃ p, r = Except.ok p) ∨ (∃ l, r = Except.error l)) ∧
    (∀ (L C W M : Type) (l : L) (c : C) (ws : List (Loc W M)),
      (Processed.mk l c ws).warnings = ws) ∧
    (∀ (W E : Type) (steps : List (StepOutcome W E)) (ws0 : List W),
      (∀ s ∈ steps, s.isErr = false) →
        runSteps steps ws0 = .ok (ws0 ++ warningsOf steps)) ∧
    (∀ (W E : Type) (pre : List (StepOutcome W E)) (e : E)
      (rest : List (StepOutcome W E)) (ws0 : List W),
      (∀ s ∈ pre, s.isErr = false) →
        runSteps (pre ++ .err e :: rest) ws0 = .error e) := by
  refine ⟨?_, ?_, ?_, ?_⟩
  · intro L C W E M r
    rcases r with l | p
    · exact Or.inr ⟨l, rfl⟩
    · exact Or.inl ⟨p, rfl⟩
  · intro L C W M l c ws
    rfl
  · intro W E steps
    induction steps with
    | nil => intro ws0 _; simp [runSteps, warningsOf]
    | cons s rest ih =>
      intro ws0 hok
      match s with
      | .ok =>
        rw [runSteps, ih ws0 fun s2 hs2 => hok s2 (List.mem_cons_of_mem _ hs2)]
        rfl
      | .warn w =>
        rw [runSteps, ih (ws0 ++ [w]) fun s2 hs2 => hok s2 (List.mem_cons_of_mem _ hs2)]
        simp [warningsOf, List.filterMap_cons]
      | .err e =>
        have := hok (.err e) (List.mem_cons_self _ _)
        simp [StepOutcome.isErr] at this
  · intro W E pre
    induction pre with
    | nil => intro e rest ws0 _; rfl
    | cons s rest2 ih =>
      intro e rest ws0 hok
      match s with
      | .ok =>
        rw [List.cons_append, runSteps]
        exact ih e rest ws0 fun s2 hs2 => hok s2 (List.mem_cons_of_mem _ hs2)
      | .warn w =>
        rw [List.cons_append, runSteps]
        exact ih e rest (ws0 ++ [w]) fun s2 hs2 => hok s2 (List.mem_cons_of_mem _ hs2)
      | .err e2 =>
        have := hok (.err e2) (List.mem_cons_self _ _)
        simp [StepOutcome.isErr] at this

/-- Concrete instantiation of `processing_failure_semantics`: a run with
one warning succeeds and returns it alongside the result. -/
theorem processing_failure_semantics_witness :
    runSteps [StepOutcome.ok, StepOutcome.warn "w", StepOutcome.ok]
      ([] : List String) = (Except.ok ["w"] : Except String (List String)) := by
  have h := processing_failure_semantics.2.2.1 String String
    [StepOutcome.ok, StepOutcome.warn "w", StepOutcome.ok] []
    (by intro s hs; fin_cases hs <;> rfl)
  simpa [warningsOf] using h

/-! ## Policy monotonicity (spec §4.5, §8; `Policy` docs in
`src/expansion/mod.rs` lines 48–86)

The code consuming the policy (key resolution and the object-entry
dispatcher) is not under `src/`; the fragment below is modelled from the
specification and from the `Policy` doc comments that are in `src/`. -/

/-- Errors of the modelled expansion fragment. -/
inductive ExpErr where
  | invalidIdValue
  | keyExpansionFailed
deriving DecidableEq, Repr

/-- Modelled from the spec: a minimal input document for the policy
fragment — string scalars, other scalars, arrays, and objects. -/
inductive Doc where
  | scalarStr (s : String)
  | scalarOther
  | arrD (items : List Doc)
  | entries (es : List (String × Doc))

/-- A term contains a `:` character. -/
def hasColon (k : String) : Bool := k.toList.contains ':'

/-- Association-list lookup in the modelled term context. -/
def ctxGet : List (String × String) → String → Option String
  | [], _ => none
  | (k, v) :: rest, key => if k = key then some v else ctxGet rest key

/-- Modelled from the spec: resolution of a key against the active
context (§4.1) — a defined term resolves to its IRI mapping; otherwise a
key containing `:` resolves to itself exactly when the external IRI
library (abstracted as the `parses` predicate, spec §6) accepts it; any
other key is unresolvable. -/
def resolveKey (ctx : List (String × String)) (parses : String → Bool)
    (k : String) : Option String :=
  match ctxGet ctx k with
  | some iri => some iri
  | none => if hasColon k then (if parses k then some k else none) else none

/-- Action taken on an entry whose key cannot be expanded. -/
inductive Act where
  | keep
  | drop
  | err
deriving DecidableEq, Repr

/-- Modelled from the `Policy` doc comments in `src/expansion/mod.rs`
(lines 61–86): an unexpandable key is always kept under `Relaxed`; under
`Standard` it is dropped unless it contains a `:` character; under
`Strict` it raises an error unless it contains a `:` character; under
`Strictest` it always raises an error. -/
def unresolvedAct : Policy → Bool → Act
  | .relaxed, _ => .keep
  | .standard, c => if c then .keep else .drop
  | .strict, c => if c then .keep else .err
  | .strictest, _ => .err

mutual

/-- Modelled from the spec: the recursive element expander (§4.4) for the
policy fragment — scalars expand without error, arrays expand their items
in order, objects dispatch their entries. -/
def expandDoc (p : Policy) (ctx : List (String × String))
    (parses : String → Bool) : Doc → Except ExpErr Unit
  | .scalarStr _ => .ok ()
  | .scalarOther => .ok ()
  | .arrD items => expandArrD p ctx parses items
  | .entries es => expandObjD p ctx parses es
termination_by d => 2 * sizeOf d

/-- Array items are expanded in order; the first error aborts. -/
def expandArrD (p : Policy) (ctx : List (String × String))
    (parses : String → Bool) : List Doc → Except ExpErr Unit
  | [] => .ok ()
  | d :: rest =>
      match expandDoc p ctx parses d with
      | .error e => .error e
      | .ok _ => expandArrD p ctx parses rest
termination_by l => 2 * sizeOf l

/-- Object entries are dispatched in order; the first error aborts. -/
def expandObjD (p : Policy) (ctx : List (String × String))
    (parses : String → Bool) : List (String × Doc) → Except ExpErr Unit
  | [] => .ok ()
  | (k, v) :: rest =>
      match expandKeyed p ctx parses k v with
      | .error e => .error e
      | .ok _ => expandObjD p ctx parses rest
termination_by l => 2 * sizeOf l

/-- Modelled from the spec: one entry of the object-entry dispatcher
(§4.5 step 4) — the keyword `@id` requires a string value
(`InvalidIdValue` otherwise); a key that resolves recurses into its
value; an unresolvable key is kept (the entry's value is expanded, as for
a resolved key), dropped (the entry is skipped, its value never
expanded), or raises an error, according to the policy. -/
def expandKeyed (p : Policy) (ctx : List (String × String))
    (parses : String → Bool) (k : String) (v : Doc) : Except ExpErr Unit :=
  if k = "@id" then
    match v with
    | .scalarStr _ => .ok ()
    | _ => .error .invalidIdValue
  else
    match resolveKey ctx parses k with
    | some _ => expandDoc p ctx parses v
    | none =>
        match unresolvedAct p (hasColon k) with
        | .keep => expandDoc p ctx parses v
        | .drop => .ok ()
        | .err => .error .keyExpansionFailed
termination_by 2 * sizeOf v + 1

end

/-- Policy pair whose unresolved-key actions are monotone: whenever the
first policy does not error, both act identically. -/
def ActLe (p1 p2 : Policy) : Prop :=
  ∀ c : Bool, unresolvedAct p1 c = .err ∨ unresolvedAct p1 c = unresolvedAct p2 c

mutual

/-- A document that expands without error under a policy also expands
without error under any policy related to it by `ActLe`. -/
theorem mono_expandDoc {p1 p2 : Policy} (hle : ActLe p1 p2)
    (ctx : List (String × String)) (parses : String → Bool) :
    ∀ d : Doc, expandDoc p1 ctx parses d = .ok () →
      expandDoc p2 ctx parses d = .ok ()
  | .scalarStr s, _ => by rw [expandDoc]
  | .scalarOther, _ => by rw [expandDoc]
  | .arrD items, h => by
    rw [expandDoc] at h ⊢
    exact mono_expandArrD hle ctx parses items h
  | .entries es, h => by
    rw [expandDoc] at h ⊢
    exact mono_expandObjD hle ctx parses es h
termination_by d => 2 * sizeOf d

/-- Monotonicity for array item sequences. -/
theorem mono_expandArrD {p1 p2 : Policy} (hle : ActLe p1 p2)
    (ctx : List (String × String)) (parses : String → Bool) :
    ∀ l : List Doc, expandArrD p1 ctx parses l = .ok () →
      expandArrD p2 ctx parses l = .ok ()
  | [], _ => by rw [expandArrD]
  | d :: rest, h => by
    rw [expandArrD] at h ⊢
    rcases h1 : expandDoc p1 ctx parses d with e | u
    · rw [h1] at h
      cases h
    · cases u
      rw [h1] at h
      rw [mono_expandDoc hle ctx parses d h1]
      exact mono_expandArrD hle ctx parses rest h
termination_by l => 2 * sizeOf l

/-- Monotonicity for object entry sequences. -/
theorem mono_expandObjD {p1 p2 : Policy} (hle : ActLe p1 p2)
    (ctx : List (String × String)) (parses : String → Bool) :
    ∀ l : List (String × Doc), expandObjD p1 ctx parses l = .ok () →
      expandObjD p2 ctx parses l = .ok ()
  | [], _ => by rw [expandObjD]
  | (k, v) :: rest, h => by
    rw [expandObjD] at h ⊢
    rcases h1 : expandKeyed p1 ctx parses k v with e | u
    · rw [h1] at h
      cases h
    · cases u
      rw [h1] at h
      rw [mono_expandKeyed hle ctx parses k v h1]
      exact mono_expandObjD hle ctx parses rest h
termination_by l => 2 * sizeOf l

/-- Monotonicity for a single dispatched entry. -/
theorem mono_expandKeyed {p1 p2 : Policy} (hle : ActLe p1 p2)
    (ctx : List (String × String)) (parses : String → Bool)
    (k : String) (v : Doc) (h : expandKeyed p1 ctx parses k v = .ok ()) :
    expandKeyed p2 ctx parses k v = .ok () := by
  rw [expandKeyed.eq_def] at h ⊢
  by_cases hk : k = "@id"
  · rw [if_pos hk] at h ⊢
    exact h
  · rw [if_neg hk] at h ⊢
    rcases hr : resolveKey ctx parses k with _ | iri
    · rw [hr] at h
      cases ha : unresolvedAct p1 (hasColon k) with
      | keep =>
        rw [ha] at h
        replace h : expandDoc p1 ctx parses v = .ok () := h
        rcases hle (hasColon k) with he | heq
        · rw [ha] at he
          cases he
        · rw [ha] at heq
          rw [← heq]
          exact mono_expandDoc hle ctx parses v h
      | drop =>
        rcases hle (hasColon k) with he | heq
        · rw [ha] at he
          cases he
        · rw [ha] at heq
          rw [← heq]
      | err =>
        rw [ha] at h
        simp at h
    · rw [hr] at h
      exact mono_expandDoc hle ctx parses v h
termination_by 2 * sizeOf v + 1

end

/-- C5 counterexample: expansion can succeed under `Standard` yet fail
under `Relaxed`.  The document `{"foo": {"@id": 5}}` with an empty
context has an unresolvable key `foo` without `:`; `Standard` drops the
entry without expanding its value and succeeds, while `Relaxed` keeps the
entry, expands its value, and aborts with `InvalidIdValue` because `@id`
requires a string.  The claimed inclusion of `Standard` successes in
`Relaxed` successes is therefore false. -/
theorem policy_standard_not_subset_relaxed :
    expandDoc .standard [] (fun _ => false)
        (.entries [("foo", .entries [("@id", .scalarOther)])]) = .ok () ∧
    expandDoc .relaxed [] (fun _ => false)
        (.entries [("foo", .entries [("@id", .scalarOther)])]) =
      .error .invalidIdValue := by
  have hfoo : hasColon "foo" = false := by decide
  constructor <;>
    simp [expandDoc, expandObjD, expandKeyed, resolveKey, ctxGet,
      unresolvedAct, hfoo]

/-- C5 (amended): expansion success is monotone along
`Strictest → Strict → Standard`: for every context, IRI parser and
document, success under `Strictest` implies success under `Strict`, and
success under `Strict` implies success under `Standard`.  The remaining
inclusion of the original claim, `Standard → Relaxed`, fails: `Relaxed`
keeps entries with undefined keys and expands their values, which can
raise errors that `Standard` avoids by dropping the entry. -/
theorem policy_monotone :
    ∀ (ctx : List (String × String)) (parses : String → Bool) (d : Doc),
      (expandDoc .strictest ctx parses d = .ok () →
        expandDoc .strict ctx parses d = .ok ()) ∧
      (expandDoc .strict ctx parses d = .ok () →
        expandDoc .standard ctx parses d = .ok ()) := by
  intro ctx parses d
  have h1 : ActLe .strictest .strict := fun c => Or.inl rfl
  have h2 : ActLe .strict .standard := fun c => by
    cases c
    · exact Or.inl rfl
    · exact Or.inr rfl
  exact ⟨mono_expandDoc h1 ctx parses d, mono_expandDoc h2 ctx parses d⟩

/-- Concrete instantiation of `policy_monotone`: a document whose only
key is an absolute IRI succeeds under `Strictest`, hence under
`Strict`. -/
theorem policy_monotone_witness :
    expandDoc .strict [] (fun _ => true)
        (.entries [("a:b", .scalarStr "v")]) = .ok () := by
  have hab : hasColon "a:b" = true := by decide
  refine (policy_monotone [] (fun _ => true)
    (.entries [("a:b", .scalarStr "v")])).1 ?_
  simp [expandDoc, expandObjD, expandKeyed, resolveKey, ctxGet, hab]

end JsonLdSpec
